import Mathlib

/-!
Verification of the Git state-synchronization core of the Claudable repository.

Paths and raw command output are modelled as `List Char`; each Python function
from `apps/api/app/services/git_ops.py`, `apps/api/app/api/git_source_control.py`,
`apps/api/app/api/git_projects.py` and `apps/api/app/api/workspace.py` that the
claims touch is embedded as a Lean function over that representation.  Outcomes
of external subprocess invocations are passed in explicitly (as `Option`
values, success flags, or environment records), since the Python code receives
them from the operating system.  Definitions come first, theorems follow.
-/

namespace Claudable

/-- Python `str.strip()` whitespace set (space, tab, newline, cr, vt, ff). -/
def pyIsSpace (c : Char) : Bool :=
  c = ' ' || c = '\t' || c = '\n' || c = '\r' || c = '\x0b' || c = '\x0c'

/-- Python `s.strip()`: drop leading and trailing whitespace. -/
def pyStrip (l : List Char) : List Char :=
  ((l.dropWhile pyIsSpace).reverse.dropWhile pyIsSpace).reverse

/-- Python `s.rstrip(chars)`: drop trailing characters satisfying `bad`. -/
def pyRstrip (bad : Char → Bool) (l : List Char) : List Char :=
  (l.reverse.dropWhile bad).reverse

/-- Python `s.split(sep)` for a single-character separator. -/
def pySplit (sep : Char) : List Char → List (List Char)
  | [] => [[]]
  | c :: cs =>
    match pySplit sep cs with
    | [] => [[]]
    | r :: rs => if c = sep then [] :: r :: rs else (c :: r) :: rs

/-- Recognizer for the four-character rename marker of `git status`
    at the head of a character list. -/
def isArrowStart : List Char → Bool
  | c0 :: c1 :: c2 :: c3 :: _ => c0 = ' ' && c1 = '-' && c2 = '>' && c3 = ' '
  | _ => false

/-- Whether the rename marker occurs anywhere in the list
    (Python `" -> " in s`). -/
def hasArrow : List Char → Bool
  | [] => false
  | c :: rest => isArrowStart (c :: rest) || hasArrow rest

/-- Python `s.split(" -> ")`: split on each occurrence of the marker,
    scanning left to right. -/
def splitArrow (acc : List Char) : List Char → List (List Char)
  | ' ' :: '-' :: '>' :: ' ' :: rest => acc.reverse :: splitArrow [] rest
  | c :: rest => splitArrow (c :: acc) rest
  | [] => [acc.reverse]

/-- The rename handling of `get_git_status`: when the path segment contains
    the marker, keep only element 1 of the split (Python
    `file_path.split(" -> ")[1]`), otherwise keep the path unchanged. -/
def arrowTarget (path : List Char) : List Char :=
  match splitArrow [] path with
  | _ :: second :: _ => second
  | _ => path

/-- Python `s.replace("* ", "")` as used on `git branch` output lines:
    delete every occurrence of the two-character marker, scanning left to
    right without rescanning deleted junctions. -/
def removeStar : List Char → List Char
  | '*' :: ' ' :: rest => removeStar rest
  | c :: rest => c :: removeStar rest
  | [] => []

/-- Python `s.replace("origin/", "")` as used on `git branch -r` output
    lines: delete every occurrence of the marker, scanning left to right
    without rescanning deleted junctions. -/
def removeOriginSlash : List Char → List Char
  | 'o' :: 'r' :: 'i' :: 'g' :: 'i' :: 'n' :: '/' :: rest => removeOriginSlash rest
  | c :: rest => c :: removeOriginSlash rest
  | [] => []

/-- Python `os.path.join(a, b)` in the simple relative-second-argument case
    used by the code. -/
def pathJoin (a b : List Char) : List Char := a ++ '/' :: b

/-- Outcome of a `subprocess.run` invocation as observed by the Python code:
    process completion with exit code and captured streams, expiry of the
    timeout budget, or some other raised exception. -/
inductive ProcOutcome where
  | completed (returncode : Int) (stdout stderr : List Char)
  | timedOut
  | raised (msg : List Char)
deriving DecidableEq

/-- `run_git_command` (duplicated verbatim in `git_projects.py` lines 51-65
    and `git_source_control.py` lines 58-72): on completion returns
    `(returncode == 0, stripped stdout if zero else stripped stderr)`; on
    `TimeoutExpired` returns `(False, "Git command timed out")`; on any other
    exception returns `(False, str(e))`. -/
def run_git_command : ProcOutcome → Bool × List Char
  | .completed rc out err => (decide (rc = 0), if rc = 0 then pyStrip out else pyStrip err)
  | .timedOut => (false, "Git command timed out".toList)
  | .raised m => (false, m)

/-- External commands and filesystem mutations issued by the endpoints,
    recorded as an abstract trace. -/
inductive Action where
  | probeTracked (file : List Char)
  | checkoutHead (file : List Char)
  | removeFile (file : List Char)
  | gitAdd (file : List Char)
  | gitAddAll
  | gitCommit (msg : List Char)
deriving DecidableEq

/-- Environment a discard request runs against: whether `git ls-files
    --error-unmatch` reports each file as tracked, whether the file exists
    on disk, and whether `git checkout HEAD -- file` succeeds. -/
structure DiscardEnv where
  tracked : List Char → Bool
  existsOnDisk : List Char → Bool
  checkoutOk : List Char → Bool

/-- Model of the effect of the staging and commit commands on the
    repository, for interpreting command traces.  Modelled from the spec:
    the index/staging area is the snapshot a commit captures (glossary);
    `add` stages one working-tree change, `add -A` stages everything
    (section 4.4), and `commit` captures the index and fails when nothing
    is staged. -/
structure RepoModel where
  working : List (List Char)
  index : List (List Char)
  commits : List (List Char × List (List Char))
deriving DecidableEq

/-- Effect of one action on the repository model (see `RepoModel`). -/
def applyAction (s : RepoModel) : Action → RepoModel
  | .gitAdd f =>
    if f ∈ s.working then
      { s with working := s.working.erase f,
               index := if f ∈ s.index then s.index else s.index ++ [f] }
    else s
  | .gitAddAll =>
    { s with working := [],
             index := s.index ++ s.working.filter (fun p => decide (p ∉ s.index)) }
  | .gitCommit m =>
    if s.index = [] then s
    else { s with index := [], commits := s.commits ++ [(m, s.index)] }
  | _ => s

/-- Run a trace of actions against the repository model. -/
def runActions (s : RepoModel) (as : List Action) : RepoModel :=
  as.foldl applyAction s

/-- Outcome of resolving a project identifier to a repository path: the
    path, or an HTTP-style error with status code and detail text. -/
inductive ResolveResult where
  | ok (path : List Char)
  | failure (status : Nat) (detail : List Char)
deriving DecidableEq

namespace GitOps

/-- Result shape of `git_ops.get_status`: three path lists. -/
structure GitStatus where
  modified : List (List Char)
  staged : List (List Char)
  untracked : List (List Char)
deriving DecidableEq

/-- One iteration of the parsing loop of `git_ops.get_status` (lines 186-204):
    lines shorter than three characters are skipped; `line[0]` is the index
    status, `line[1]` the working-tree status, `line[3:]` the path; `?` in the
    index column appends to untracked, else `A/M/D/R/C` appends to staged;
    independently `M/D` in the working-tree column appends to modified. -/
def statusLineStep (s : GitStatus) (line : List Char) : GitStatus :=
  match line with
  | idx :: wt :: _ :: path =>
    let s1 :=
      if idx = '?' then { s with untracked := s.untracked ++ [path] }
      else if idx = 'A' ∨ idx = 'M' ∨ idx = 'D' ∨ idx = 'R' ∨ idx = 'C' then
        { s with staged := s.staged ++ [path] }
      else s
    if wt = 'M' ∨ wt = 'D' then { s1 with modified := s1.modified ++ [path] } else s1
  | _ => s

/-- `git_ops.get_status`, taking the outcome of `git status --porcelain` as
    `none` (the command raised `CalledProcessError`) or `some lines` (its
    stripped stdout, already split into lines).  On failure the function
    returns empty sets. -/
def get_status (result : Option (List (List Char))) : GitStatus :=
  match result with
  | some lines => lines.foldl statusLineStep ⟨[], [], []⟩
  | none => ⟨[], [], []⟩

/-- Per-line contribution of a porcelain line to the untracked set of
    `get_status`. -/
def untrackedOfLine (line : List Char) : Option (List Char) :=
  match line with
  | idx :: _ :: _ :: path => if idx = '?' then some path else none
  | _ => none

/-- Per-line contribution of a porcelain line to the staged set of
    `get_status`. -/
def stagedOfLine (line : List Char) : Option (List Char) :=
  match line with
  | idx :: _ :: _ :: path =>
    if idx = '?' then none
    else if idx = 'A' ∨ idx = 'M' ∨ idx = 'D' ∨ idx = 'R' ∨ idx = 'C' then some path
    else none
  | _ => none

/-- Per-line contribution of a porcelain line to the modified set of
    `get_status`. -/
def modifiedOfLine (line : List Char) : Option (List Char) :=
  match line with
  | _ :: wt :: _ :: path => if wt = 'M' ∨ wt = 'D' then some path else none
  | _ => none

/-- The path segment of a porcelain line as read by `get_status`. -/
def pathOfLine (line : List Char) : Option (List Char) :=
  match line with
  | _ :: _ :: _ :: path => some path
  | _ => none

/-- `git_ops.discard_changes` (lines 250-256): the only command issued is
    `git checkout HEAD file`; there is no tracked-ness probe and no direct
    file deletion. -/
def discard_changes (file : List Char) : List Action :=
  [Action.checkoutHead file]

end GitOps

namespace SourceControl

/-- Entry model of `GitFileStatus` in `git_source_control.py`. -/
structure GitFileStatus where
  path : List Char
  status : Char
  staged : Bool
deriving DecidableEq

/-- The three file lists built by the parsing loop of `get_git_status`
    (`git_source_control.py` lines 92-137). -/
structure StatusFiles where
  modified_files : List GitFileStatus
  staged_files : List GitFileStatus
  untracked_files : List GitFileStatus
deriving DecidableEq

/-- One iteration of the status parsing loop of `get_git_status` (lines
    97-137): blank lines are skipped; `line[0]` is the index status
    (defaulting to a space when absent), `line[1]` the working-tree status,
    `line[3:]` the path; a rename marker in the path keeps only the
    destination; any non-space index character appends a staged entry; a
    non-space working-tree character appends an untracked entry when it is
    `?` and a modified entry otherwise. -/
def gitStatusLineStep (r : StatusFiles) (line : List Char) : StatusFiles :=
  if pyStrip line = [] then r
  else
    let index_status := line.getD 0 ' '
    let worktree_status := line.getD 1 ' '
    let file_path := arrowTarget (line.drop 3)
    let r1 :=
      if index_status ≠ ' ' then
        { r with staged_files := r.staged_files ++ [⟨file_path, index_status, true⟩] }
      else r
    if worktree_status ≠ ' ' then
      if worktree_status = '?' then
        { r1 with untracked_files := r1.untracked_files ++ [⟨file_path, 'U', false⟩] }
      else
        { r1 with modified_files := r1.modified_files ++ [⟨file_path, worktree_status, false⟩] }
    else r1

/-- The parsing portion of `get_git_status`: fold the loop over the lines of
    the porcelain output (the code splits the output on newline first). -/
def get_git_status (lines : List (List Char)) : StatusFiles :=
  lines.foldl gitStatusLineStep ⟨[], [], []⟩

/-- Per-line staged entry produced by the `get_git_status` loop. -/
def stagedEntryOfLine (line : List Char) : Option GitFileStatus :=
  if pyStrip line = [] then none
  else if line.getD 0 ' ' ≠ ' ' then
    some ⟨arrowTarget (line.drop 3), line.getD 0 ' ', true⟩
  else none

/-- Per-line untracked entry produced by the `get_git_status` loop. -/
def untrackedEntryOfLine (line : List Char) : Option GitFileStatus :=
  if pyStrip line = [] then none
  else if line.getD 1 ' ' = '?' then
    some ⟨arrowTarget (line.drop 3), 'U', false⟩
  else none

/-- Per-line modified entry produced by the `get_git_status` loop. -/
def modifiedEntryOfLine (line : List Char) : Option GitFileStatus :=
  if pyStrip line = [] then none
  else if line.getD 1 ' ' ≠ ' ' ∧ line.getD 1 ' ' ≠ '?' then
    some ⟨arrowTarget (line.drop 3), line.getD 1 ' ', false⟩
  else none

/-- The loop body of the discard endpoint `discard_changes`
    (`git_source_control.py` lines 378-391), recorded as a command trace:
    per file, first the `git ls-files --error-unmatch` probe; a tracked file
    is restored with `git checkout HEAD -- file` (a checkout failure raises
    and aborts the loop); an untracked file is deleted from disk when it
    exists. -/
def discard_changes (env : DiscardEnv) : List (List Char) → List Action
  | [] => []
  | f :: fs =>
    if env.tracked f then
      if env.checkoutOk f then
        Action.probeTracked f :: Action.checkoutHead f :: discard_changes env fs
      else [Action.probeTracked f, Action.checkoutHead f]
    else if env.existsOnDisk f then
      Action.probeTracked f :: Action.removeFile f :: discard_changes env fs
    else Action.probeTracked f :: discard_changes env fs

/-- Per-file command block of the discard endpoint when checkouts succeed. -/
def discardBlock (env : DiscardEnv) (f : List Char) : List Action :=
  Action.probeTracked f ::
    (if env.tracked f then [Action.checkoutHead f]
     else if env.existsOnDisk f then [Action.removeFile f]
     else [])

/-- Repository path resolution shared by the project-scoped git endpoints
    (`git_source_control.py` lines 174-191 and parallels): fallback branch,
    trying the conventional `projects_root/project_id/repo` location. -/
def resolveFallback (fsExists : List Char → Bool) (root projectId : List Char) : ResolveResult :=
  let fb := pathJoin (pathJoin root projectId) ("repo".toList)
  if fsExists fb then ResolveResult.ok fb
  else ResolveResult.failure 404 ("Repository not found".toList)

/-- Repository path resolution of `get_project_git_status` and its sibling
    endpoints: `row` is the database lookup result (`none` when the project
    record is missing, otherwise the nullable `repo_path` column); a falsy
    (absent or empty) or non-existing primary path falls back to the
    conventional location. -/
def resolve_repo_path (fsExists : List Char → Bool) (root projectId : List Char)
    (row : Option (Option (List Char))) : ResolveResult :=
  match row with
  | none => ResolveResult.failure 404 ("Project not found".toList)
  | some none => resolveFallback fsExists root projectId
  | some (some p) =>
    if p = [] ∨ fsExists p = false then resolveFallback fsExists root projectId
    else ResolveResult.ok p

/-- Modelled from the spec (section 4.5): the resolver uses the persisted
    explicit repository path field when it is set and exists on disk, and
    otherwise the conventional fallback location; a missing project record
    is reported before and distinctly from a missing repository. -/
def resolve_repo_path_spec (fsExists : List Char → Bool) (root projectId : List Char)
    (row : Option (Option (List Char))) : ResolveResult :=
  match row with
  | none => ResolveResult.failure 404 ("Project not found".toList)
  | some none => resolveFallback fsExists root projectId
  | some (some p) =>
    if fsExists p then ResolveResult.ok p
    else resolveFallback fsExists root projectId

/-- The commit endpoint `commit_changes` (`git_source_control.py` lines
    270-288) as a command trace: when a non-empty file list is given each
    listed file is staged with `git add`, then `commit_all` (`git_ops.py`
    lines 157-173) runs `git add -A` followed by `git commit -m message`. -/
def commit_changes (files : Option (List (List Char))) (msg : List Char) : List Action :=
  (match files with
   | some fs => fs.map Action.gitAdd
   | none => []) ++ [Action.gitAddAll, Action.gitCommit msg]

end SourceControl

namespace GitProjects

/-- Entry model of `GitBranch` in `git_projects.py`. -/
structure GitBranch where
  name : List Char
  is_current : Bool
  is_remote : Bool
deriving DecidableEq

/-- One iteration of the local-branch loop of `get_project_branches`
    (lines 168-179): strip the line; skip when empty; the current branch is
    marked by a `* ` marker; the stored name has the marker removed. -/
def addLocalLine (bs : List GitBranch) (rawLine : List Char) : List GitBranch :=
  let line := pyStrip rawLine
  if line ≠ [] then
    bs ++ [⟨removeStar line, ("* ".toList).isPrefixOf line, false⟩]
  else bs

/-- One iteration of the remote-branch loop of `get_project_branches`
    (lines 182-194): strip the line; skip when empty or when it starts with
    `origin/HEAD`; remove the `origin/` marker; append only when no branch
    of that name was collected yet. -/
def addRemoteLine (bs : List GitBranch) (rawLine : List Char) : List GitBranch :=
  let line := pyStrip rawLine
  if line ≠ [] ∧ ¬ (("origin/HEAD".toList).isPrefixOf line) then
    let name := removeOriginSlash line
    if bs.any (fun b => decide (b.name = name)) then bs
    else bs ++ [⟨name, false, true⟩]
  else bs

/-- `get_project_branches` (lines 150-196): fold the local loop over the
    `git branch` output lines when that command succeeded, then the remote
    loop over the `git branch -r` output lines when that command succeeded. -/
def get_project_branches (localOut remoteOut : Option (List (List Char))) : List GitBranch :=
  let bs := match localOut with
    | some ls => ls.foldl addLocalLine []
    | none => []
  match remoteOut with
  | some ls => ls.foldl addRemoteLine bs
  | none => bs

/-- The character set of Python `rstrip(".git")` in `clone_repository`. -/
def gitStripSet (c : Char) : Bool := c = '.' || c = 'g' || c = 'i' || c = 't'

/-- Project-name derivation of `clone_repository` (lines 290-299): an
    explicit non-empty request name wins; otherwise the URL is
    `rstrip`-ed over the character set of ".git" and split on `/`, and the
    last part is taken. -/
def clone_project_name (reqName : Option (List Char)) (gitUrl : List Char) : List Char :=
  match reqName with
  | some n =>
    if n ≠ [] then n
    else (pySplit '/' (pyRstrip gitStripSet gitUrl)).getLastD []
  | none => (pySplit '/' (pyRstrip gitStripSet gitUrl)).getLastD []

end GitProjects

namespace Workspace

/-- The persisted columns of a project record that the workspace endpoints
    read and write: identifier, nullable linked local repository name, and
    current branch. -/
structure WorkspaceRec where
  id : List Char
  repoName : Option (List Char)
  branch : List Char
deriving DecidableEq

/-- Environment a workspace request runs against: whether a named local
    repository exists as a git repository, and its live branch list. -/
structure WorkspaceEnv where
  repoOk : List Char → Bool
  branches : List Char → List (List Char)

/-- `create_workspace` (`workspace.py` lines 77-154): validate the local
    repository, validate the requested branch against the live branch list,
    reject with 409 when a record for the same (repository, branch) pair
    already exists, otherwise append the new record. -/
def create_workspace (env : WorkspaceEnv) (db : List WorkspaceRec)
    (reqRepo reqBranch newId : List Char) : Except Nat (List WorkspaceRec) :=
  if env.repoOk reqRepo = false then Except.error 404
  else if reqBranch ∉ env.branches reqRepo then Except.error 400
  else if db.any (fun r => decide (r.repoName = some reqRepo ∧ r.branch = reqBranch)) then
    Except.error 409
  else Except.ok (db ++ [⟨newId, some reqRepo, reqBranch⟩])

/-- `switch_workspace_branch` (`workspace.py` lines 157-197): find the
    record, require it to be a git workspace, validate the branch against
    the live branch list, then persist the new branch name on the record —
    with no duplicate-pair check. -/
def switch_workspace_branch (env : WorkspaceEnv) (db : List WorkspaceRec)
    (wsId branchName : List Char) : Except Nat (List WorkspaceRec) :=
  match db.find? (fun r => decide (r.id = wsId)) with
  | none => Except.error 404
  | some r =>
    match r.repoName with
    | none => Except.error 400
    | some name =>
      if env.repoOk name = false then Except.error 404
      else if branchName ∉ env.branches name then Except.error 400
      else Except.ok (db.map (fun q => if q.id = wsId then { q with branch := branchName } else q))

/-- Number of workspace records linked to a given (repository, branch)
    pair. -/
def linkCount (db : List WorkspaceRec) (name branch : List Char) : Nat :=
  (db.filter (fun r => decide (r.repoName = some name ∧ r.branch = branch))).length

/-- The at-most-one invariant claimed for workspace records. -/
def AtMostOneLink (db : List WorkspaceRec) : Prop :=
  ∀ name branch, linkCount db name branch ≤ 1

end Workspace

theorem pySplit_ne_nil (sep : Char) (l : List Char) : pySplit sep l ≠ [] := by
  cases l with
  | nil => simp [pySplit]
  | cons c cs =>
    simp only [pySplit]
    cases pySplit sep cs with
    | nil => simp
    | cons r rs =>
      by_cases h : c = sep <;> simp [h]

namespace GitOps

theorem statusLineStep_eq (s : GitStatus) (line : List Char) :
    statusLineStep s line =
      ⟨s.modified ++ (modifiedOfLine line).toList,
       s.staged ++ (stagedOfLine line).toList,
       s.untracked ++ (untrackedOfLine line).toList⟩ := by
  match line with
  | [] => simp [statusLineStep, modifiedOfLine, stagedOfLine, untrackedOfLine]
  | [a] => simp [statusLineStep, modifiedOfLine, stagedOfLine, untrackedOfLine]
  | [a, b] => simp [statusLineStep, modifiedOfLine, stagedOfLine, untrackedOfLine]
  | idx :: wt :: c :: path =>
    simp only [statusLineStep, modifiedOfLine, stagedOfLine, untrackedOfLine]
    split_ifs <;> simp_all

theorem foldl_statusLineStep (lines : List (List Char)) (s : GitStatus) :
    lines.foldl statusLineStep s =
      ⟨s.modified ++ lines.filterMap modifiedOfLine,
       s.staged ++ lines.filterMap stagedOfLine,
       s.untracked ++ lines.filterMap untrackedOfLine⟩ := by
  induction lines generalizing s with
  | nil => simp
  | cons l ls ih =>
    rw [List.foldl_cons, ih, statusLineStep_eq]
    cases hm : modifiedOfLine l <;> cases hs : stagedOfLine l <;>
      cases hu : untrackedOfLine l <;>
      simp [List.filterMap_cons, hm, hs, hu]

theorem get_status_eq (lines : List (List Char)) :
    get_status (some lines) =
      ⟨lines.filterMap modifiedOfLine,
       lines.filterMap stagedOfLine,
       lines.filterMap untrackedOfLine⟩ := by
  rw [get_status, foldl_statusLineStep]
  rfl

end GitOps

namespace SourceControl

theorem gitStatusLineStep_eq (r : StatusFiles) (line : List Char) :
    gitStatusLineStep r line =
      ⟨r.modified_files ++ (modifiedEntryOfLine line).toList,
       r.staged_files ++ (stagedEntryOfLine line).toList,
       r.untracked_files ++ (untrackedEntryOfLine line).toList⟩ := by
  simp only [gitStatusLineStep, modifiedEntryOfLine, stagedEntryOfLine, untrackedEntryOfLine]
  split_ifs <;> simp_all

theorem foldl_gitStatusLineStep (lines : List (List Char)) (r : StatusFiles) :
    lines.foldl gitStatusLineStep r =
      ⟨r.modified_files ++ lines.filterMap modifiedEntryOfLine,
       r.staged_files ++ lines.filterMap stagedEntryOfLine,
       r.untracked_files ++ lines.filterMap untrackedEntryOfLine⟩ := by
  induction lines generalizing r with
  | nil => simp
  | cons l ls ih =>
    rw [List.foldl_cons, ih, gitStatusLineStep_eq]
    cases hm : modifiedEntryOfLine l <;> cases hs : stagedEntryOfLine l <;>
      cases hu : untrackedEntryOfLine l <;>
      simp [List.filterMap_cons, hm, hs, hu]

theorem get_git_status_eq (lines : List (List Char)) :
    get_git_status lines =
      ⟨lines.filterMap modifiedEntryOfLine,
       lines.filterMap stagedEntryOfLine,
       lines.filterMap untrackedEntryOfLine⟩ := by
  rw [get_git_status, foldl_gitStatusLineStep]
  rfl

end SourceControl

/-- C8: when the underlying `git status --porcelain` invocation fails,
    `get_status` returns a result with empty modified, staged and untracked
    sets rather than an error — the same value it returns for a clean
    repository whose porcelain output is empty. -/
theorem status_failure_empty :
    GitOps.get_status none = ⟨[], [], []⟩ ∧
    GitOps.get_status none = GitOps.get_status (some []) :=
  ⟨rfl, rfl⟩

/-- C1 counterexample: on the porcelain line of an untracked file the
    `get_git_status` parser places the path in the untracked set and in the
    staged set at the same time, refuting the claimed partition for this
    parser. -/
theorem untracked_in_staged_counterexample :
    (∃ e ∈ (SourceControl.get_git_status [("?? foo".toList)]).untracked_files,
        e.path = "foo".toList) ∧
    ∃ e ∈ (SourceControl.get_git_status [("?? foo".toList)]).staged_files,
        e.path = "foo".toList := by
  decide

/-- C2 counterexample: on a rename line the `git_ops.get_status` parser
    keeps the whole arrow-separated segment as the path instead of only the
    destination, refuting the claim for this parser. -/
theorem rename_arrow_counterexample :
    (GitOps.get_status (some [("R  a -> b".toList)])).staged = ["a -> b".toList] ∧
    "b".toList ∉ (GitOps.get_status (some [("R  a -> b".toList)])).staged := by
  decide

/-- C3 counterexample: `git_ops.discard_changes` (behind the discard route
    of `git.py`) issues only the checkout command for a file — no
    tracked-ness probe runs first and no direct deletion ever happens, so
    the claimed per-file behavior does not hold for this discard
    operation. -/
theorem discard_probe_counterexample :
    GitOps.discard_changes ("notes.txt".toList) =
      [Action.checkoutHead ("notes.txt".toList)] ∧
    Action.probeTracked ("notes.txt".toList) ∉ GitOps.discard_changes ("notes.txt".toList) ∧
    Action.removeFile ("notes.txt".toList) ∉ GitOps.discard_changes ("notes.txt".toList) := by
  decide

/-- C5 counterexample: a timed-out command and an ordinary failing command
    whose stderr happens to equal the fixed timeout message produce exactly
    the same `run_git_command` result, so the timeout failure does not have
    a distinguishable shape. -/
theorem timeout_indistinct_counterexample :
    run_git_command (ProcOutcome.completed 1 [] ("Git command timed out".toList)) =
      run_git_command ProcOutcome.timedOut ∧
    (run_git_command ProcOutcome.timedOut).1 = false := by
  decide

/-- C6 counterexample: two workspaces for the same repository on branches
    b1 and b2 are created (so the at-most-one invariant holds), and then a
    branch switch of the first workspace to b2 succeeds without any
    duplicate check, leaving two records for the pair (R, b2). -/
theorem switch_branch_duplicate_counterexample :
    Workspace.create_workspace ⟨fun _ => true, fun _ => ["b1".toList, "b2".toList]⟩ []
        ("R".toList) ("b1".toList) ("w1".toList) =
      Except.ok [⟨"w1".toList, some ("R".toList), "b1".toList⟩] ∧
    Workspace.create_workspace ⟨fun _ => true, fun _ => ["b1".toList, "b2".toList]⟩
        [⟨"w1".toList, some ("R".toList), "b1".toList⟩]
        ("R".toList) ("b2".toList) ("w2".toList) =
      Except.ok [⟨"w1".toList, some ("R".toList), "b1".toList⟩,
                 ⟨"w2".toList, some ("R".toList), "b2".toList⟩] ∧
    Workspace.switch_workspace_branch ⟨fun _ => true, fun _ => ["b1".toList, "b2".toList]⟩
        [⟨"w1".toList, some ("R".toList), "b1".toList⟩,
         ⟨"w2".toList, some ("R".toList), "b2".toList⟩]
        ("w1".toList) ("b2".toList) =
      Except.ok [⟨"w1".toList, some ("R".toList), "b2".toList⟩,
                 ⟨"w2".toList, some ("R".toList), "b2".toList⟩] ∧
    Workspace.linkCount
      [⟨"w1".toList, some ("R".toList), "b2".toList⟩,
       ⟨"w2".toList, some ("R".toList), "b2".toList⟩]
      ("R".toList) ("b2".toList) = 2 :=
  ⟨rfl, rfl, rfl, rfl⟩

/-- C5 (corrected): on timeout `run_git_command` returns the fixed pair
    `(false, "Git command timed out")`; a non-zero exit also yields a
    `(false, text)` pair, and the two results coincide exactly when the
    stripped stderr equals the fixed message — the timeout is distinguished
    only by its message text, not by the shape of the result. -/
theorem timeout_result_amended (rc : Int) (out err : List Char) (hrc : rc ≠ 0) :
    run_git_command ProcOutcome.timedOut = (false, "Git command timed out".toList) ∧
    run_git_command (ProcOutcome.completed rc out err) = (false, pyStrip err) ∧
    (run_git_command (ProcOutcome.completed rc out err) = run_git_command ProcOutcome.timedOut ↔
      pyStrip err = "Git command timed out".toList) := by
  refine ⟨rfl, ?_, ?_⟩
  · simp [run_git_command, hrc]
  · simp [run_git_command, hrc, Prod.ext_iff]

/-- Witness for C5 at a concrete failing command. -/
theorem timeout_result_amended_witness :
    run_git_command (ProcOutcome.completed 1 [] ("boom".toList)) = (false, "boom".toList) := by
  have h := timeout_result_amended 1 [] ("boom".toList) (by decide)
  exact h.2.1.trans (by decide)

theorem discard_changes_eq_flatMap (env : DiscardEnv) (files : List (List Char))
    (hok : ∀ f, env.checkoutOk f = true) :
    SourceControl.discard_changes env files = files.flatMap (SourceControl.discardBlock env) := by
  induction files with
  | nil => rfl
  | cons f fs ih =>
    simp only [SourceControl.discard_changes, SourceControl.discardBlock, hok f]
    by_cases ht : env.tracked f <;> by_cases he : env.existsOnDisk f <;>
      simp [ht, he, ih, List.flatMap_cons, SourceControl.discardBlock]

/-- C3 (corrected): in the discard endpoint of `git_source_control.py` the
    tracked-ness probe governs the action taken for every file — a tracked
    file is restored with checkout and never deleted, an untracked file is
    deleted from disk when present and never checked out (stated here for
    runs whose checkouts succeed, so the loop is not aborted early).  The
    claim fails for the other discard operation, `git_ops.discard_changes`,
    which issues no probe (see the counterexample). -/
theorem discard_probe_amended (env : DiscardEnv) (files : List (List Char))
    (hok : ∀ f, env.checkoutOk f = true) :
    (∀ f ∈ files, Action.probeTracked f ∈ SourceControl.discard_changes env files) ∧
    (∀ f ∈ files, env.tracked f = true →
        Action.checkoutHead f ∈ SourceControl.discard_changes env files) ∧
    (∀ f ∈ files, env.tracked f = false → env.existsOnDisk f = true →
        Action.removeFile f ∈ SourceControl.discard_changes env files) ∧
    (∀ f, env.tracked f = false →
        Action.checkoutHead f ∉ SourceControl.discard_changes env files) ∧
    (∀ f, env.tracked f = true →
        Action.removeFile f ∉ SourceControl.discard_changes env files) := by
  rw [discard_changes_eq_flatMap env files hok]
  refine ⟨?_, ?_, ?_, ?_, ?_⟩
  · intro f hf
    exact List.mem_flatMap.mpr ⟨f, hf, by simp [SourceControl.discardBlock]⟩
  · intro f hf ht
    exact List.mem_flatMap.mpr ⟨f, hf, by simp [SourceControl.discardBlock, ht]⟩
  · intro f hf ht he
    exact List.mem_flatMap.mpr ⟨f, hf, by simp [SourceControl.discardBlock, ht, he]⟩
  · intro f ht hmem
    obtain ⟨g, _, hg⟩ := List.mem_flatMap.mp hmem
    by_cases htg : env.tracked g <;> by_cases heg : env.existsOnDisk g <;>
      simp [SourceControl.discardBlock, htg, heg] at hg <;>
      simp_all
  · intro f ht hmem
    obtain ⟨g, _, hg⟩ := List.mem_flatMap.mp hmem
    by_cases htg : env.tracked g <;> by_cases heg : env.existsOnDisk g <;>
      simp only [SourceControl.discardBlock, htg, heg] at hg <;>
      simp_all

/-- Witness for C3 at a concrete environment: file a is tracked, file b is
    untracked and present on disk. -/
theorem discard_probe_amended_witness :
    Action.probeTracked ("a".toList) ∈
      SourceControl.discard_changes
        ⟨fun f => decide (f = "a".toList), fun _ => true, fun _ => true⟩
        [("a".toList), ("b".toList)] ∧
    Action.checkoutHead ("a".toList) ∈
      SourceControl.discard_changes
        ⟨fun f => decide (f = "a".toList), fun _ => true, fun _ => true⟩
        [("a".toList), ("b".toList)] ∧
    Action.removeFile ("b".toList) ∈
      SourceControl.discard_changes
        ⟨fun f => decide (f = "a".toList), fun _ => true, fun _ => true⟩
        [("a".toList), ("b".toList)] ∧
    Action.checkoutHead ("b".toList) ∉
      SourceControl.discard_changes
        ⟨fun f => decide (f = "a".toList), fun _ => true, fun _ => true⟩
        [("a".toList), ("b".toList)] := by
  have h := discard_probe_amended
    ⟨fun f => decide (f = "a".toList), fun _ => true, fun _ => true⟩
    [("a".toList), ("b".toList)] (fun _ => rfl)
  exact ⟨h.1 ("a".toList) (by decide),
         h.2.1 ("a".toList) (by decide) (by decide),
         h.2.2.1 ("b".toList) (by decide) (by decide) (by decide),
         h.2.2.2.1 ("b".toList) (by decide)⟩

/-- C4 (confirmed): repository path resolution follows the specified rule —
    the persisted explicit path wins when it exists on disk, the
    conventional `root/projectId/repo` location is tried otherwise, and the
    two failure conditions are distinct, with the missing-project case
    checked before any path is considered.  The hypothesis records that the
    filesystem existence probe rejects the empty path, as `os.path.exists`
    does, which makes the additional falsy-string check of the code
    redundant. -/
theorem resolve_repo_path_correct (fsExists : List Char → Bool) (root projectId : List Char)
    (row : Option (Option (List Char))) (h : fsExists [] = false) :
    SourceControl.resolve_repo_path fsExists root projectId row =
      SourceControl.resolve_repo_path_spec fsExists root projectId row ∧
    ResolveResult.failure 404 ("Project not found".toList) ≠
      ResolveResult.failure 404 ("Repository not found".toList) := by
  constructor
  · match row with
    | none => rfl
    | some none => rfl
    | some (some p) =>
      simp only [SourceControl.resolve_repo_path, SourceControl.resolve_repo_path_spec]
      by_cases hp : p = []
      · subst hp
        simp [h]
      · by_cases hf : fsExists p <;> simp [hp, hf]
  · decide

/-- Witness for C4: a legacy record with no explicit path resolves to the
    conventional fallback location when only that location exists. -/
theorem resolve_repo_path_correct_witness :
    SourceControl.resolve_repo_path
        (fun l => decide (l = pathJoin (pathJoin ("root".toList) ("p1".toList)) ("repo".toList)))
        ("root".toList) ("p1".toList) (some none) =
      ResolveResult.ok (pathJoin (pathJoin ("root".toList) ("p1".toList)) ("repo".toList)) := by
  have h := resolve_repo_path_correct
    (fun l => decide (l = pathJoin (pathJoin ("root".toList) ("p1".toList)) ("repo".toList)))
    ("root".toList) ("p1".toList) (some none) (by decide)
  exact h.1.trans (by decide)

theorem nodup_filterMap_eq {α β : Type} (f : α → Option β) {l : List α}
    (hnd : (l.filterMap f).Nodup) {a b : α} {p : β}
    (ha : a ∈ l) (hb : b ∈ l) (hfa : f a = some p) (hfb : f b = some p) :
    a = b := by
  induction l with
  | nil => cases ha
  | cons x xs ih =>
    rw [List.filterMap_cons] at hnd
    cases hfx : f x with
    | none =>
      rw [hfx] at hnd
      rcases List.mem_cons.mp ha with rfl | ha'
      · rw [hfa] at hfx; cases hfx
      · rcases List.mem_cons.mp hb with rfl | hb'
        · rw [hfb] at hfx; cases hfx
        · exact ih hnd ha' hb'
    | some q =>
      rw [hfx] at hnd
      have hq : q ∉ xs.filterMap f := (List.nodup_cons.mp hnd).1
      have hnd' := (List.nodup_cons.mp hnd).2
      rcases List.mem_cons.mp ha with rfl | ha' <;> rcases List.mem_cons.mp hb with rfl | hb'
      · rfl
      · exfalso
        rw [hfa] at hfx
        injection hfx with hqp
        exact hq (hqp ▸ List.mem_filterMap.mpr ⟨b, hb', hfb⟩)
      · exfalso
        rw [hfb] at hfx
        injection hfx with hqp
        exact hq (hqp ▸ List.mem_filterMap.mpr ⟨a, ha', hfa⟩)
      · exact ih hnd' ha' hb'

namespace GitOps

theorem untrackedOfLine_inv {l p : List Char} (h : untrackedOfLine l = some p) :
    pathOfLine l = some p ∧ l.getD 0 ' ' = '?' := by
  match l with
  | [] => simp [untrackedOfLine] at h
  | [a] => simp [untrackedOfLine] at h
  | [a, b] => simp [untrackedOfLine] at h
  | idx :: wt :: c :: path =>
    by_cases hidx : idx = '?'
    · simp only [untrackedOfLine, if_pos hidx] at h
      injection h with hp
      subst hp
      exact ⟨rfl, by simpa using hidx⟩
    · simp [untrackedOfLine, hidx] at h

theorem stagedOfLine_inv {l p : List Char} (h : stagedOfLine l = some p) :
    pathOfLine l = some p ∧ l.getD 0 ' ' ≠ '?' := by
  match l with
  | [] => simp [stagedOfLine] at h
  | [a] => simp [stagedOfLine] at h
  | [a, b] => simp [stagedOfLine] at h
  | idx :: wt :: c :: path =>
    by_cases hidx : idx = '?'
    · simp [stagedOfLine, hidx] at h
    · by_cases hadm : idx = 'A' ∨ idx = 'M' ∨ idx = 'D' ∨ idx = 'R' ∨ idx = 'C'
      · simp only [stagedOfLine, if_neg hidx, if_pos hadm] at h
        injection h with hp
        subst hp
        exact ⟨rfl, by simpa using hidx⟩
      · simp [stagedOfLine, hidx, hadm] at h

theorem modifiedOfLine_inv {l p : List Char} (h : modifiedOfLine l = some p) :
    pathOfLine l = some p ∧ (l.getD 1 ' ' = 'M' ∨ l.getD 1 ' ' = 'D') := by
  match l with
  | [] => simp [modifiedOfLine] at h
  | [a] => simp [modifiedOfLine] at h
  | [a, b] => simp [modifiedOfLine] at h
  | idx :: wt :: c :: path =>
    by_cases hwt : wt = 'M' ∨ wt = 'D'
    · simp only [modifiedOfLine, if_pos hwt] at h
      injection h with hp
      subst hp
      refine ⟨rfl, ?_⟩
      simpa using hwt
    · simp [modifiedOfLine, hwt] at h

end GitOps

namespace SourceControl

theorem untrackedEntryOfLine_inv {l : List Char} {e : GitFileStatus}
    (h : untrackedEntryOfLine l = some e) :
    pyStrip l ≠ [] ∧ l.getD 1 ' ' = '?' ∧ e = ⟨arrowTarget (l.drop 3), 'U', false⟩ := by
  by_cases h1 : pyStrip l = []
  · simp [untrackedEntryOfLine, h1] at h
  · by_cases h2 : l.getD 1 ' ' = '?'
    · simp only [untrackedEntryOfLine, if_neg h1, if_pos h2] at h
      injection h with he
      exact ⟨h1, h2, he.symm⟩
    · simp only [untrackedEntryOfLine] at h
      rw [if_neg h1, if_neg h2] at h
      cases h

end SourceControl

/-- C1 (corrected): for well-formed porcelain input (a line carries `?` in
    the index column exactly when it carries `?` in the working-tree
    column, and no path is listed twice) the `git_ops.get_status` parser
    keeps the untracked set disjoint from both the staged and the modified
    set; the `get_git_status` parser does not — there every untracked
    entry's path also appears among the staged entries, because the code
    treats the `?` index column as a non-space staged marker. -/
theorem status_partition_amended (lines : List (List Char))
    (hwf : ∀ l ∈ lines, (l.getD 0 ' ' = '?' ↔ l.getD 1 ' ' = '?'))
    (hnd : (lines.filterMap GitOps.pathOfLine).Nodup) :
    (∀ p ∈ (GitOps.get_status (some lines)).untracked,
        p ∉ (GitOps.get_status (some lines)).staged ∧
        p ∉ (GitOps.get_status (some lines)).modified) ∧
    ∀ e ∈ (SourceControl.get_git_status lines).untracked_files,
        e.path ∈ (SourceControl.get_git_status lines).staged_files.map
          SourceControl.GitFileStatus.path := by
  constructor
  · intro p hp
    rw [GitOps.get_status_eq] at hp
    replace hp : p ∈ lines.filterMap GitOps.untrackedOfLine := hp
    obtain ⟨l, hl, hul⟩ := List.mem_filterMap.mp hp
    obtain ⟨hpath, hidx⟩ := GitOps.untrackedOfLine_inv hul
    constructor
    · intro hps
      rw [GitOps.get_status_eq] at hps
      replace hps : p ∈ lines.filterMap GitOps.stagedOfLine := hps
      obtain ⟨l2, hl2, hsl⟩ := List.mem_filterMap.mp hps
      obtain ⟨hpath2, hidx2⟩ := GitOps.stagedOfLine_inv hsl
      have hll : l = l2 := nodup_filterMap_eq GitOps.pathOfLine hnd hl hl2 hpath hpath2
      exact hidx2 (hll ▸ hidx)
    · intro hpm
      rw [GitOps.get_status_eq] at hpm
      replace hpm : p ∈ lines.filterMap GitOps.modifiedOfLine := hpm
      obtain ⟨l2, hl2, hml⟩ := List.mem_filterMap.mp hpm
      obtain ⟨hpath2, hwt2⟩ := GitOps.modifiedOfLine_inv hml
      have hll : l = l2 := nodup_filterMap_eq GitOps.pathOfLine hnd hl hl2 hpath hpath2
      subst hll
      have hwt : l.getD 1 ' ' = '?' := (hwf l hl).mp hidx
      rcases hwt2 with hM | hD
      · rw [hwt] at hM
        cases hM
      · rw [hwt] at hD
        cases hD
  · intro e he
    rw [SourceControl.get_git_status_eq] at he
    replace he : e ∈ lines.filterMap SourceControl.untrackedEntryOfLine := he
    obtain ⟨l, hl, hue⟩ := List.mem_filterMap.mp he
    obtain ⟨hns, hwt, rfl⟩ := SourceControl.untrackedEntryOfLine_inv hue
    have hidx : l.getD 0 ' ' = '?' := (hwf l hl).mpr hwt
    rw [SourceControl.get_git_status_eq]
    refine List.mem_map.mpr ⟨⟨arrowTarget (l.drop 3), l.getD 0 ' ', true⟩, ?_, rfl⟩
    show _ ∈ lines.filterMap SourceControl.stagedEntryOfLine
    refine List.mem_filterMap.mpr ⟨l, hl, ?_⟩
    have hidx2 : l.getD 0 ' ' ≠ ' ' := by rw [hidx]; decide
    simp only [SourceControl.stagedEntryOfLine]
    rw [if_neg hns, if_pos hidx2]

/-- Witness for C1 on concrete porcelain input with a partially staged
    file, an untracked file, and an unstaged modification. -/
theorem status_partition_amended_witness :
    "b".toList ∉
      (GitOps.get_status (some [("MM a".toList), ("?? b".toList), (" M c".toList)])).staged ∧
    "b".toList ∉
      (GitOps.get_status (some [("MM a".toList), ("?? b".toList), (" M c".toList)])).modified := by
  have h := status_partition_amended [("MM a".toList), ("?? b".toList), (" M c".toList)]
    (by decide) (by decide)
  exact h.1 ("b".toList) (by decide)

theorem splitArrow_cons_not_arrow (acc : List Char) (c : Char) (rest : List Char)
    (h : isArrowStart (c :: rest) = false) :
    splitArrow acc (c :: rest) = splitArrow (c :: acc) rest := by
  conv_lhs => rw [splitArrow.eq_def]
  split
  · rename_i heq
    rw [show c :: rest = ' ' :: '-' :: '>' :: ' ' :: _ from heq] at h
    simp [isArrowStart] at h
  · rename_i heq
    injection heq with hc hr
    subst hc
    subst hr
    rfl
  · rename_i heq
    simp at heq

theorem splitArrow_arrowfree (l : List Char) (acc : List Char) (h : hasArrow l = false) :
    splitArrow acc l = [acc.reverse ++ l] := by
  induction l generalizing acc with
  | nil => simp [splitArrow]
  | cons c rest ih =>
    have h2 : isArrowStart (c :: rest) = false ∧ hasArrow rest = false := by
      simpa [hasArrow] using h
    rw [splitArrow_cons_not_arrow acc c rest h2.1, ih _ h2.2]
    simp

theorem isArrowStart_pad (x : Char) (l b : List Char) :
    isArrowStart (x :: (l ++ ' ' :: '-' :: '>' :: ' ' :: b)) =
      isArrowStart (x :: (l ++ [' ', '-', '>'])) := by
  match l with
  | [] => rfl
  | [d] => rfl
  | [d, e] => rfl
  | d :: e :: f :: r => rfl

theorem splitArrow_append_arrow (a b acc : List Char)
    (h : hasArrow (a ++ [' ', '-', '>']) = false) :
    splitArrow acc (a ++ ' ' :: '-' :: '>' :: ' ' :: b) =
      (acc.reverse ++ a) :: splitArrow [] b := by
  induction a generalizing acc with
  | nil =>
    have e : splitArrow acc (' ' :: '-' :: '>' :: ' ' :: b) =
        acc.reverse :: splitArrow [] b := rfl
    simpa using e
  | cons c a2 ih =>
    have hpad : isArrowStart (c :: (a2 ++ [' ', '-', '>'])) = false ∧
        hasArrow (a2 ++ [' ', '-', '>']) = false := by
      rw [List.cons_append] at h
      simpa [hasArrow] using h
    have hstart : isArrowStart (c :: (a2 ++ ' ' :: '-' :: '>' :: ' ' :: b)) = false := by
      rw [isArrowStart_pad]
      exact hpad.1
    rw [List.cons_append, splitArrow_cons_not_arrow _ _ _ hstart, ih _ hpad.2]
    simp

theorem arrowTarget_decomp (old new : List Char)
    (h1 : hasArrow (old ++ [' ', '-', '>']) = false)
    (h2 : hasArrow new = false) :
    arrowTarget (old ++ ' ' :: '-' :: '>' :: ' ' :: new) = new := by
  unfold arrowTarget
  rw [splitArrow_append_arrow old new [] h1, splitArrow_arrowfree new [] h2]
  rfl

theorem pyStrip_cons_ne_nil (c : Char) (l : List Char) (hc : pyIsSpace c = false) :
    pyStrip (c :: l) ≠ [] := by
  unfold pyStrip
  rw [List.dropWhile_cons]
  simp only [hc]
  intro hempty
  rw [List.reverse_eq_nil_iff, List.dropWhile_eq_nil_iff] at hempty
  have hcmem : c ∈ (c :: l).reverse := by simp
  have := hempty c hcmem
  rw [hc] at this
  cases this

/-- C2 (corrected): on a porcelain line whose path segment is an
    arrow-separated rename `old -> new`, the `get_git_status` parser keeps
    only the destination `new`, while the `git_ops.get_status` parser keeps
    the entire segment including the marker (shown here on a single staged
    rename line; the hypotheses say the marker occurs exactly where
    displayed). -/
theorem rename_arrow_amended (old new : List Char)
    (h1 : hasArrow (old ++ [' ', '-', '>']) = false)
    (h2 : hasArrow new = false) :
    (SourceControl.get_git_status
        [('R' :: ' ' :: ' ' :: (old ++ ' ' :: '-' :: '>' :: ' ' :: new))]).staged_files =
      [⟨new, 'R', true⟩] ∧
    (GitOps.get_status
        (some [('R' :: ' ' :: ' ' :: (old ++ ' ' :: '-' :: '>' :: ' ' :: new))])).staged =
      [old ++ ' ' :: '-' :: '>' :: ' ' :: new] := by
  constructor
  · rw [SourceControl.get_git_status_eq]
    show List.filterMap _ _ = _
    have hns : pyStrip ('R' :: ' ' :: ' ' :: (old ++ ' ' :: '-' :: '>' :: ' ' :: new)) ≠ [] :=
      pyStrip_cons_ne_nil 'R' _ (by decide)
    have hentry : SourceControl.stagedEntryOfLine
        ('R' :: ' ' :: ' ' :: (old ++ ' ' :: '-' :: '>' :: ' ' :: new)) =
        some ⟨new, 'R', true⟩ := by
      simp only [SourceControl.stagedEntryOfLine]
      rw [if_neg hns, if_pos (by simp : ('R' :: ' ' :: ' ' ::
        (old ++ ' ' :: '-' :: '>' :: ' ' :: new)).getD 0 ' ' ≠ ' ')]
      have hd : ('R' :: ' ' :: ' ' :: (old ++ ' ' :: '-' :: '>' :: ' ' :: new)).drop 3 =
          old ++ ' ' :: '-' :: '>' :: ' ' :: new := rfl
      rw [hd, arrowTarget_decomp old new h1 h2]
      rfl
    rw [List.filterMap_cons, hentry]
    rfl
  · rw [GitOps.get_status_eq]
    show List.filterMap _ _ = _
    have hentry : GitOps.stagedOfLine
        ('R' :: ' ' :: ' ' :: (old ++ ' ' :: '-' :: '>' :: ' ' :: new)) =
        some (old ++ ' ' :: '-' :: '>' :: ' ' :: new) := by
      simp [GitOps.stagedOfLine]
    rw [List.filterMap_cons, hentry]
    rfl

/-- Witness for C2 on the concrete rename line `R  a -> b`. -/
theorem rename_arrow_amended_witness :
    (SourceControl.get_git_status [("R  a -> b".toList)]).staged_files =
      [⟨"b".toList, 'R', true⟩] ∧
    (GitOps.get_status (some [("R  a -> b".toList)])).staged = ["a -> b".toList] := by
  have h := rename_arrow_amended ("a".toList) ("b".toList) (by decide) (by decide)
  have e1 : "R  a -> b".toList =
      'R' :: ' ' :: ' ' :: ("a".toList ++ ' ' :: '-' :: '>' :: ' ' :: "b".toList) := by decide
  have e2 : "a -> b".toList = "a".toList ++ ' ' :: '-' :: '>' :: ' ' :: "b".toList := by decide
  rw [e1, e2]
  exact h

theorem applyAction_gitAdd_mem (s : RepoModel) (g f : List Char)
    (hf : f ∈ s.working ∨ f ∈ s.index) :
    f ∈ (applyAction s (Action.gitAdd g)).working ∨
    f ∈ (applyAction s (Action.gitAdd g)).index := by
  simp only [applyAction]
  by_cases hg : g ∈ s.working
  · rw [if_pos hg]
    rcases hf with hw | hi
    · by_cases hfg : f = g
      · subst hfg
        right
        by_cases hgi : f ∈ s.index <;> simp [hgi]
      · left
        exact (List.mem_erase_of_ne hfg).mpr hw
    · right
      by_cases hgi : g ∈ s.index <;> simp [hgi, hi]
  · rw [if_neg hg]
    exact hf

theorem foldl_gitAdds_mem (files : List (List Char)) (s : RepoModel) (f : List Char)
    (hf : f ∈ s.working ∨ f ∈ s.index) :
    f ∈ (runActions s (files.map Action.gitAdd)).working ∨
    f ∈ (runActions s (files.map Action.gitAdd)).index := by
  induction files generalizing s with
  | nil => exact hf
  | cons g gs ih =>
    simp only [List.map_cons, runActions, List.foldl_cons]
    exact ih (applyAction s (Action.gitAdd g)) (applyAction_gitAdd_mem s g f hf)

theorem applyAction_commit_commits (t : RepoModel) (msg : List Char) (h : t.index ≠ []) :
    (applyAction t (Action.gitCommit msg)).commits = t.commits ++ [(msg, t.index)] := by
  simp only [applyAction]
  rw [if_neg h]

theorem commits_foldl_gitAdds (files : List (List Char)) (s : RepoModel) :
    (runActions s (files.map Action.gitAdd)).commits = s.commits := by
  induction files generalizing s with
  | nil => rfl
  | cons g gs ih =>
    simp only [List.map_cons, runActions, List.foldl_cons]
    rw [show List.foldl applyAction (applyAction s (Action.gitAdd g)) (gs.map Action.gitAdd) =
      runActions (applyAction s (Action.gitAdd g)) (gs.map Action.gitAdd) from rfl, ih]
    simp only [applyAction]
    split <;> rfl

/-- C10 (confirmed): with an explicit file list, the commit endpoint stages
    the listed files and then `commit_all` stages everything remaining
    before committing, so every pending working-tree change — listed or
    not — is captured by the created commit. -/
theorem commit_includes_all_changes (s : RepoModel) (files : List (List Char))
    (msg f : List Char) (hf : f ∈ s.working) :
    ∃ captured,
      (runActions s (SourceControl.commit_changes (some files) msg)).commits =
        s.commits ++ [(msg, captured)] ∧
      f ∈ captured ∧
      ∀ g, g ∈ s.working ∨ g ∈ s.index → g ∈ captured := by
  have key : ∀ g, g ∈ s.working ∨ g ∈ s.index →
      g ∈ (applyAction (runActions s (files.map Action.gitAdd)) Action.gitAddAll).index := by
    intro g hg
    have h1 := foldl_gitAdds_mem files s g hg
    simp only [applyAction]
    rcases h1 with hw | hi
    · by_cases hgi : g ∈ (runActions s (files.map Action.gitAdd)).index
      · exact List.mem_append_left _ hgi
      · refine List.mem_append_right _ ?_
        rw [List.mem_filter]
        exact ⟨hw, by simpa using hgi⟩
    · exact List.mem_append_left _ hi
  refine ⟨(applyAction (runActions s (files.map Action.gitAdd)) Action.gitAddAll).index,
    ?_, key f (Or.inl hf), key⟩
  have hne : (applyAction (runActions s (files.map Action.gitAdd)) Action.gitAddAll).index ≠ [] :=
    List.ne_nil_of_mem (key f (Or.inl hf))
  have tr : runActions s (SourceControl.commit_changes (some files) msg) =
      applyAction (applyAction (runActions s (files.map Action.gitAdd)) Action.gitAddAll)
        (Action.gitCommit msg) := by
    simp only [SourceControl.commit_changes, runActions, List.foldl_append, List.foldl_cons,
      List.foldl_nil]
  rw [tr, applyAction_commit_commits _ _ hne,
    show (applyAction (runActions s (files.map Action.gitAdd)) Action.gitAddAll).commits =
      (runActions s (files.map Action.gitAdd)).commits from rfl,
    commits_foldl_gitAdds]

/-- Witness for C10: committing with the explicit list `[a]` also commits
    the unlisted working-tree change `b`. -/
theorem commit_includes_all_changes_witness :
    ∃ captured,
      (runActions ⟨[("a".toList), ("b".toList)], [], []⟩
          (SourceControl.commit_changes (some [("a".toList)]) ("m".toList))).commits =
        (⟨[("a".toList), ("b".toList)], [], []⟩ : RepoModel).commits ++
          [(("m".toList), captured)] ∧
      ("b".toList) ∈ captured ∧
      ∀ g, g ∈ (⟨[("a".toList), ("b".toList)], [], []⟩ : RepoModel).working ∨
          g ∈ (⟨[("a".toList), ("b".toList)], [], []⟩ : RepoModel).index → g ∈ captured :=
  commit_includes_all_changes ⟨[("a".toList), ("b".toList)], [], []⟩
    [("a".toList)] ("m".toList) ("b".toList) (by decide)

/-- C6 (corrected): `create_workspace` rejects a second link for an
    already-linked (repository, branch) pair with a 409 conflict, and a
    successful create preserves the at-most-one invariant; the invariant is
    nevertheless not maintained by every operation, because
    `switch_workspace_branch` performs no duplicate check (see the
    counterexample). -/
theorem workspace_link_amended (env : Workspace.WorkspaceEnv)
    (db : List Workspace.WorkspaceRec) (repo branch newId : List Char)
    (hro : env.repoOk repo = true) (hbr : branch ∈ env.branches repo)
    (hinv : Workspace.AtMostOneLink db) :
    ((∃ r ∈ db, r.repoName = some repo ∧ r.branch = branch) →
        Workspace.create_workspace env db repo branch newId = Except.error 409) ∧
    ∀ db2, Workspace.create_workspace env db repo branch newId = Except.ok db2 →
        Workspace.AtMostOneLink db2 := by
  have hc1 : ¬ (env.repoOk repo = false) := by simp [hro]
  have hc2 : ¬ (branch ∉ env.branches repo) := fun hc => hc hbr
  constructor
  · rintro ⟨r, hr, hrn, hrb⟩
    unfold Workspace.create_workspace
    rw [if_neg hc1, if_neg hc2, if_pos]
    rw [List.any_eq_true]
    exact ⟨r, hr, by simp [hrn, hrb]⟩
  · intro db2 hok
    unfold Workspace.create_workspace at hok
    rw [if_neg hc1, if_neg hc2] at hok
    by_cases hdup : db.any (fun r => decide (r.repoName = some repo ∧ r.branch = branch)) = true
    · rw [if_pos hdup] at hok
      cases hok
    · rw [if_neg hdup] at hok
      injection hok with hdb
      subst hdb
      have hnodup : ∀ r ∈ db, ¬ (r.repoName = some repo ∧ r.branch = branch) := by
        intro r hr hcon
        exact hdup (List.any_eq_true.mpr ⟨r, hr, by simp [hcon.1, hcon.2]⟩)
      intro name br
      unfold Workspace.linkCount
      rw [List.filter_append, List.length_append]
      by_cases hm : name = repo ∧ br = branch
      · obtain ⟨rfl, rfl⟩ := hm
        have h0 : (db.filter
            (fun r => decide (r.repoName = some name ∧ r.branch = br))).length = 0 := by
          rw [List.length_eq_zero, List.filter_eq_nil_iff]
          intro r hr
          simpa using hnodup r hr
        rw [h0]
        simp [List.filter]
      · have h1 : (([⟨newId, some repo, branch⟩] : List Workspace.WorkspaceRec).filter
            (fun r => decide (r.repoName = some name ∧ r.branch = br))).length = 0 := by
          have hdec : decide ((some repo : Option (List Char)) = some name ∧ branch = br) =
              false := by
            rw [decide_eq_false_iff_not]
            intro hcon
            apply hm
            refine ⟨?_, hcon.2.symm⟩
            have h3 := hcon.1
            injection h3 with h4
            exact h4.symm
          simp only [List.filter]
          rw [hdec]
          rfl
        rw [h1]
        have := hinv name br
        unfold Workspace.linkCount at this
        omega

/-- Witness for C6: with one existing workspace for (R, b1), relinking the
    same pair is rejected with 409, and a successful create of (R, b2)
    preserves the at-most-one invariant. -/
theorem workspace_link_amended_witness :
    Workspace.create_workspace ⟨fun _ => true, fun _ => ["b1".toList, "b2".toList]⟩
        [⟨"w1".toList, some ("R".toList), "b1".toList⟩]
        ("R".toList) ("b1".toList) ("w9".toList) = Except.error 409 ∧
    Workspace.AtMostOneLink
      [⟨"w1".toList, some ("R".toList), "b1".toList⟩,
       ⟨"w2".toList, some ("R".toList), "b2".toList⟩] := by
  have hinv1 : Workspace.AtMostOneLink [⟨"w1".toList, some ("R".toList), "b1".toList⟩] := by
    intro n b
    unfold Workspace.linkCount
    simp only [List.filter]
    split <;> simp
  have h1 := workspace_link_amended ⟨fun _ => true, fun _ => ["b1".toList, "b2".toList]⟩
    [⟨"w1".toList, some ("R".toList), "b1".toList⟩]
    ("R".toList) ("b1".toList) ("w9".toList) rfl (by simp) hinv1
  have h2 := workspace_link_amended ⟨fun _ => true, fun _ => ["b1".toList, "b2".toList]⟩
    [⟨"w1".toList, some ("R".toList), "b1".toList⟩]
    ("R".toList) ("b2".toList) ("w2".toList) rfl (by simp) hinv1
  refine ⟨h1.1 ⟨⟨"w1".toList, some ("R".toList), "b1".toList⟩, ?_, rfl, rfl⟩, ?_⟩
  · simp
  · exact h2.2 _ rfl

theorem getLastD_of_ne_nil {α : Type} (l : List α) (h : l ≠ []) (d1 d2 : α) :
    l.getLastD d1 = l.getLastD d2 := by
  cases l with
  | nil => exact absurd rfl h
  | cons x xs => rfl

theorem pySplit_no_sep (sep : Char) (l : List Char) (h : sep ∉ l) :
    pySplit sep l = [l] := by
  induction l with
  | nil => rfl
  | cons c cs ih =>
    have hc : ¬ (c = sep) := fun e => h (e ▸ List.mem_cons_self c cs)
    have hcs : sep ∉ cs := fun m => h (List.mem_cons_of_mem c m)
    simp only [pySplit]
    rw [ih hcs]
    simp [hc]

theorem pySplit_length_ge_two (sep : Char) (a t : List Char) :
    2 ≤ (pySplit sep (a ++ sep :: t)).length := by
  induction a with
  | nil =>
    simp only [List.nil_append, pySplit]
    cases h : pySplit sep t with
    | nil => exact absurd h (pySplit_ne_nil sep t)
    | cons r rs => simp
  | cons c a2 ih =>
    simp only [List.cons_append, pySplit]
    cases h : pySplit sep (a2 ++ sep :: t) with
    | nil => exact absurd h (pySplit_ne_nil sep (a2 ++ sep :: t))
    | cons r rs =>
      rw [h] at ih
      by_cases hc : c = sep
      · simp [hc]
      · simp only [if_neg hc, List.length_cons]
        simp only [List.length_cons] at ih
        omega

theorem pySplit_getLast_append (sep : Char) (a t : List Char) :
    (pySplit sep (a ++ sep :: t)).getLastD [] = (pySplit sep t).getLastD [] := by
  induction a with
  | nil =>
    rw [List.nil_append]
    cases h : pySplit sep t with
    | nil => exact absurd h (pySplit_ne_nil sep t)
    | cons r rs =>
      have hred : pySplit sep (sep :: t) = [] :: r :: rs := by
        simp only [pySplit]
        rw [h]
        simp
      rw [hred, List.getLastD_cons]
  | cons c a2 ih =>
    rw [List.cons_append]
    cases h : pySplit sep (a2 ++ sep :: t) with
    | nil => exact absurd h (pySplit_ne_nil sep (a2 ++ sep :: t))
    | cons r rs =>
      have hlen := pySplit_length_ge_two sep a2 t
      rw [h] at ih hlen
      have hrs : rs ≠ [] := by
        intro e
        subst e
        simp at hlen
      have hred : pySplit sep (c :: (a2 ++ sep :: t)) =
          if c = sep then [] :: r :: rs else (c :: r) :: rs := by
        simp only [pySplit]
        rw [h]
      rw [hred]
      by_cases hc : c = sep
      · rw [if_pos hc, List.getLastD_cons]
        exact ih
      · rw [if_neg hc, List.getLastD_cons]
        rw [List.getLastD_cons] at ih
        rw [getLastD_of_ne_nil rs hrs (c :: r) r]
        exact ih

theorem dropWhile_append_cons {p : Char → Bool} (a : List Char) (x : Char) (b : List Char)
    (hx : p x = false) :
    (a ++ x :: b).dropWhile p = a.dropWhile p ++ x :: b := by
  induction a with
  | nil => simp [List.dropWhile_cons, hx]
  | cons c cs ih =>
    simp only [List.cons_append, List.dropWhile_cons]
    by_cases hc : p c <;> simp [hc, ih]

theorem pyRstrip_append (bad : Char → Bool) (a b : List Char) (hb : bad '/' = false) :
    pyRstrip bad (a ++ '/' :: b) = a ++ '/' :: pyRstrip bad b := by
  unfold pyRstrip
  rw [List.reverse_append, List.reverse_cons, List.append_assoc, List.singleton_append,
    dropWhile_append_cons b.reverse '/' a.reverse hb, List.reverse_append, List.reverse_cons,
    List.reverse_reverse]
  simp

theorem mem_pyRstrip (bad : Char → Bool) (l : List Char) (x : Char)
    (hx : x ∈ pyRstrip bad l) : x ∈ l := by
  unfold pyRstrip at hx
  rw [List.mem_reverse] at hx
  have := (List.dropWhile_sublist bad).mem hx
  rwa [List.mem_reverse] at this

/-- C9 (confirmed): when a clone request omits an explicit project name,
    the derived name is the last path segment of the URL with all trailing
    characters from the set of ".git" removed — a character-set strip, as
    performed by `rstrip(".git")` before the split on `/`. -/
theorem clone_name_charset_strip (base seg : List Char) (hseg : '/' ∉ seg) :
    GitProjects.clone_project_name none (base ++ '/' :: seg) =
      pyRstrip GitProjects.gitStripSet seg := by
  unfold GitProjects.clone_project_name
  rw [pyRstrip_append GitProjects.gitStripSet base seg (by decide)]
  rw [pySplit_getLast_append '/' base (pyRstrip GitProjects.gitStripSet seg)]
  rw [pySplit_no_sep '/' (pyRstrip GitProjects.gitStripSet seg)
    (fun hm => hseg (mem_pyRstrip GitProjects.gitStripSet seg '/' hm))]
  rfl

/-- Witness for C9: a URL ending in `/testing` yields the project name
    `testin`, not `testing` — the strip is over a character set, not the
    literal `.git` suffix. -/
theorem clone_name_charset_strip_witness :
    GitProjects.clone_project_name none ("https://github.com/user/testing".toList) =
      "testin".toList := by
  have e : "https://github.com/user/testing".toList =
      "https://github.com/user".toList ++ '/' :: "testing".toList := by decide
  rw [e, clone_name_charset_strip ("https://github.com/user".toList) ("testing".toList)
    (by decide)]
  decide

theorem getLastD_mem {α : Type} (l : List α) (h : l ≠ []) (d : α) : l.getLastD d ∈ l := by
  induction l generalizing d with
  | nil => exact absurd rfl h
  | cons x xs ih =>
    rw [List.getLastD_cons]
    cases hxs : xs with
    | nil => simp
    | cons y ys =>
      have := ih (by simp [hxs]) x
      rw [hxs] at this
      exact List.mem_cons_of_mem x (hxs ▸ this)

theorem dropWhile_append_of_all (p : Char → Bool) (pre l : List Char)
    (hpre : ∀ c ∈ pre, p c = true) :
    (pre ++ l).dropWhile p = l.dropWhile p := by
  induction pre with
  | nil => rfl
  | cons c cs ih =>
    rw [List.cons_append, List.dropWhile_cons, hpre c (by simp)]
    exact ih (fun d hd => hpre d (List.mem_cons_of_mem c hd))

theorem getLastD_append_singleton {α : Type} (m : List α) (x d : α) :
    (m ++ [x]).getLastD d = x := by
  induction m generalizing d with
  | nil => rfl
  | cons a as ih =>
    rw [List.cons_append, List.getLastD_cons]
    exact ih a

theorem pyStrip_trim (pre core : List Char)
    (hpre : ∀ c ∈ pre, pyIsSpace c = true)
    (hne : core ≠ [])
    (hhead : pyIsSpace (core.headD ' ') = false)
    (hlast : pyIsSpace (core.getLastD ' ') = false) :
    pyStrip (pre ++ core) = core := by
  unfold pyStrip
  rw [dropWhile_append_of_all pyIsSpace pre core hpre]
  have h1 : core.dropWhile pyIsSpace = core := by
    cases core with
    | nil => rfl
    | cons c rest =>
      rw [List.dropWhile_cons]
      simp only [List.headD_cons] at hhead
      simp [hhead]
  rw [h1]
  obtain ⟨m, x, hmx⟩ := (List.eq_nil_or_concat core).resolve_left hne
  rw [List.concat_eq_append] at hmx
  subst hmx
  have hx : pyIsSpace x = false := by
    rw [getLastD_append_singleton m x ' '] at hlast
    exact hlast
  rw [List.reverse_append, List.reverse_cons, List.reverse_nil, List.nil_append,
    List.singleton_append, List.dropWhile_cons, hx]
  simp

theorem star_isPrefixOf (n : List Char) :
    ("* ".toList).isPrefixOf ('*' :: ' ' :: n) = true := by
  simp [List.isPrefixOf]

theorem star_not_prefix (n : List Char) (h : ∀ c ∈ n, pyIsSpace c = false) :
    ("* ".toList).isPrefixOf n = false := by
  cases n with
  | nil => rfl
  | cons c rest =>
    cases rest with
    | nil => simp [List.isPrefixOf]
    | cons d rest2 =>
      have hds : ((' ' : Char) == d) = false := by
        cases hde : ((' ' : Char) == d)
        · rfl
        · exfalso
          have he : (' ' : Char) = d := eq_of_beq hde
          have hd2 := h d (by simp)
          rw [← he] at hd2
          simp [pyIsSpace] at hd2
      show (('*' == c) && ((' ' == d) && List.isPrefixOf [] rest2)) = false
      rw [hds]
      simp

theorem removeStar_no_space (l : List Char) (h : ∀ c ∈ l, pyIsSpace c = false) :
    removeStar l = l := by
  induction l with
  | nil => rfl
  | cons c rest ih =>
    conv_lhs => rw [removeStar.eq_def]
    split
    · rename_i heq
      injection heq with h1 h2
      exfalso
      have hmem : (' ' : Char) ∈ c :: rest := by
        rw [h2]
        exact List.mem_cons_of_mem c (List.mem_cons_self ' ' _)
      have hfalse := h ' ' hmem
      simp [pyIsSpace] at hfalse
    · rename_i heq
      injection heq with h1 h2
      subst h1
      subst h2
      rw [ih (fun d hd => h d (List.mem_cons_of_mem c hd))]
    · rename_i heq
      simp at heq

theorem isPrefixOf_append_cancel (a x y : List Char) :
    (a ++ x).isPrefixOf (a ++ y) = x.isPrefixOf y := by
  induction a with
  | nil => rfl
  | cons c a2 ih => simp [List.isPrefixOf, ih]

namespace GitProjects

theorem addLocalLine_wf (bs : List GitBranch) (flag : Bool) (n : List Char)
    (hne : n ≠ []) (hsp : ∀ c ∈ n, pyIsSpace c = false) :
    addLocalLine bs (if flag then '*' :: ' ' :: n else ' ' :: ' ' :: n) =
      bs ++ [⟨n, flag, false⟩] := by
  have hlastn : pyIsSpace (n.getLastD ' ') = false := hsp _ (getLastD_mem n hne ' ')
  cases flag with
  | true =>
    have hstrip : pyStrip ('*' :: ' ' :: n) = '*' :: ' ' :: n := by
      have e : ('*' :: ' ' :: n).getLastD ' ' = n.getLastD ' ' := by
        rw [List.getLastD_cons, List.getLastD_cons,
          getLastD_of_ne_nil n hne ' ' ' ']
      exact pyStrip_trim [] ('*' :: ' ' :: n) (by simp) (by simp)
        (by exact rfl) (by rw [e]; exact hlastn)
    show addLocalLine bs ('*' :: ' ' :: n) = bs ++ [⟨n, true, false⟩]
    simp only [addLocalLine]
    rw [hstrip]
    rw [if_pos (by simp : ('*' :: ' ' :: n : List Char) ≠ [])]
    rw [show removeStar ('*' :: ' ' :: n) = removeStar n from rfl,
      removeStar_no_space n hsp, star_isPrefixOf]
  | false =>
    show addLocalLine bs (' ' :: ' ' :: n) = bs ++ [⟨n, false, false⟩]
    have hstrip : pyStrip (' ' :: ' ' :: n) = n := by
      refine pyStrip_trim [' ', ' '] n ?_ hne ?_ hlastn
      · intro c hc
        simp at hc
        subst hc
        rfl
      · cases n with
        | nil => exact absurd rfl hne
        | cons c rest => exact hsp c (by simp)
    simp only [addLocalLine]
    rw [hstrip]
    rw [if_pos hne]
    rw [removeStar_no_space n hsp, star_not_prefix n hsp]

theorem addRemoteLine_wf (bs : List GitBranch) (n : List Char)
    (hne : n ≠ []) (hsp : ∀ c ∈ n, pyIsSpace c = false)
    (horig : removeOriginSlash n = n)
    (hH : ("HEAD".toList).isPrefixOf n = false) :
    addRemoteLine bs (' ' :: ' ' :: ("origin/".toList ++ n)) =
      (if bs.any (fun b => decide (b.name = n)) then bs else bs ++ [⟨n, false, true⟩]) := by
  have hstrip : pyStrip (' ' :: ' ' :: ("origin/".toList ++ n)) = "origin/".toList ++ n := by
    refine pyStrip_trim [' ', ' '] ("origin/".toList ++ n) ?_ (by simp) (by exact rfl) ?_
    · intro c hc
      simp at hc
      subst hc
      rfl
    · have e : ("origin/".toList ++ n).getLastD ' ' = n.getLastD '/' := by
        show ('o' :: 'r' :: 'i' :: 'g' :: 'i' :: 'n' :: '/' :: n).getLastD ' ' = n.getLastD '/'
        simp only [List.getLastD_cons]
      rw [e, getLastD_of_ne_nil n hne '/' ' ']
      exact hsp _ (getLastD_mem n hne ' ')
  simp only [addRemoteLine]
  rw [hstrip]
  have hcond : ("origin/".toList ++ n ≠ []) ∧
      ¬ (("origin/HEAD".toList).isPrefixOf ("origin/".toList ++ n) = true) := by
    refine ⟨by simp, ?_⟩
    rw [show ("origin/HEAD".toList) = ("origin/".toList ++ "HEAD".toList) from by decide,
      isPrefixOf_append_cancel, hH]
    simp
  rw [if_pos hcond]
  rw [show removeOriginSlash ("origin/".toList ++ n) = removeOriginSlash n from rfl, horig]

theorem addRemoteLine_head (bs : List GitBranch) :
    addRemoteLine bs (' ' :: ' ' :: ("origin/HEAD -> origin/main".toList)) = bs := by
  simp only [addRemoteLine]
  rw [if_neg (by decide)]

theorem foldl_addLocalLine (locals : List (Bool × List Char)) (bs : List GitBranch)
    (h : ∀ p ∈ locals, p.2 ≠ [] ∧ ∀ c ∈ p.2, pyIsSpace c = false) :
    (locals.map (fun p => if p.1 then '*' :: ' ' :: p.2 else ' ' :: ' ' :: p.2)).foldl
        addLocalLine bs =
      bs ++ locals.map (fun p => ⟨p.2, p.1, false⟩) := by
  induction locals generalizing bs with
  | nil => simp
  | cons q qs ih =>
    obtain ⟨hne, hsp⟩ := h q (by simp)
    simp only [List.map_cons, List.foldl_cons]
    rw [addLocalLine_wf bs q.1 q.2 hne hsp]
    have hstep := ih (bs ++ [(⟨q.2, q.1, false⟩ : GitBranch)])
      (fun p hp => h p (List.mem_cons_of_mem q hp))
    rw [hstep]
    simp

theorem foldl_addRemoteLine (remotes : List (List Char)) (bs : List GitBranch)
    (h : ∀ n ∈ remotes, n ≠ [] ∧ (∀ c ∈ n, pyIsSpace c = false) ∧
        removeOriginSlash n = n ∧ ("HEAD".toList).isPrefixOf n = false)
    (hnd : remotes.Nodup) :
    (remotes.map (fun n => ' ' :: ' ' :: ("origin/".toList ++ n))).foldl addRemoteLine bs =
      bs ++ (remotes.filter (fun n => !(bs.any (fun b => decide (b.name = n))))).map
        (fun n => ⟨n, false, true⟩) := by
  induction remotes generalizing bs with
  | nil => simp
  | cons n rest ih =>
    obtain ⟨hne, hsp, horig, hH⟩ := h n (by simp)
    have hh : ∀ m ∈ rest, m ≠ [] ∧ (∀ c ∈ m, pyIsSpace c = false) ∧
        removeOriginSlash m = m ∧ ("HEAD".toList).isPrefixOf m = false :=
      fun m hm => h m (List.mem_cons_of_mem n hm)
    have hndr : rest.Nodup := (List.nodup_cons.mp hnd).2
    have hnin : n ∉ rest := (List.nodup_cons.mp hnd).1
    simp only [List.map_cons, List.foldl_cons]
    rw [addRemoteLine_wf bs n hne hsp horig hH]
    by_cases hdup : bs.any (fun b => decide (b.name = n)) = true
    · rw [if_pos hdup, ih bs hh hndr]
      have hfc : (n :: rest).filter (fun m => !(bs.any (fun b => decide (b.name = m)))) =
          rest.filter (fun m => !(bs.any (fun b => decide (b.name = m)))) := by
        rw [List.filter_cons]
        simp [hdup]
      rw [hfc]
    · rw [if_neg hdup]
      have hstep := ih (bs ++ [(⟨n, false, true⟩ : GitBranch)]) hh hndr
      rw [hstep]
      have hfeq : rest.filter
          (fun m => !((bs ++ [(⟨n, false, true⟩ : GitBranch)]).any
            (fun b => decide (b.name = m)))) =
          rest.filter (fun m => !(bs.any (fun b => decide (b.name = m)))) := by
        apply List.filter_congr
        intro m hm
        have hmn : ¬ ((n : List Char) = m) := fun e => hnin (e ▸ hm)
        simp [List.any_append, List.any_cons, List.any_nil, hmn]
      rw [hfeq]
      have hfc : (n :: rest).filter (fun m => !(bs.any (fun b => decide (b.name = m)))) =
          n :: rest.filter (fun m => !(bs.any (fun b => decide (b.name = m)))) := by
        rw [List.filter_cons]
        simp [hdup]
      rw [hfc]
      simp

end GitProjects

theorem countP_eq_one_of_nodup_mem {α : Type} [DecidableEq α] (l : List α) (hnd : l.Nodup)
    {a : α} (ha : a ∈ l) :
    (l.filter (fun x => decide (x = a))).length = 1 := by
  induction l with
  | nil => cases ha
  | cons x xs ih =>
    rw [List.filter_cons]
    rcases List.mem_cons.mp ha with rfl | ha2
    · rw [if_pos (by simp)]
      have hnin := (List.nodup_cons.mp hnd).1
      have h0 : xs.filter (fun y => decide (y = a)) = [] := by
        rw [List.filter_eq_nil_iff]
        intro y hy
        simp only [decide_eq_true_eq]
        exact fun e => hnin (e ▸ hy)
      rw [h0]
      rfl
    · have hx : ¬ (x = a) := fun e => (List.nodup_cons.mp hnd).1 (e ▸ ha2)
      rw [if_neg (by simpa using hx)]
      exact ih (List.nodup_cons.mp hnd).2 ha2

theorem any_entry_name (locals : List (Bool × List Char)) (m : List Char) :
    ((locals.map (fun p => (⟨p.2, p.1, false⟩ : GitProjects.GitBranch))).any
      (fun b => decide (b.name = m))) = decide (m ∈ locals.map Prod.snd) := by
  cases hd : decide (m ∈ locals.map Prod.snd) with
  | true =>
    have hmem := of_decide_eq_true hd
    obtain ⟨p, hp, hpm⟩ := List.mem_map.mp hmem
    rw [List.any_eq_true]
    refine ⟨(⟨p.2, p.1, false⟩ : GitProjects.GitBranch),
      List.mem_map.mpr ⟨p, hp, rfl⟩, ?_⟩
    simp [hpm]
  | false =>
    have hnot := of_decide_eq_false hd
    rw [← Bool.not_eq_true, List.any_eq_true]
    rintro ⟨b, hb, hbm⟩
    obtain ⟨p, hp, rfl⟩ := List.mem_map.mp hb
    simp only [decide_eq_true_eq] at hbm
    exact hnot (List.mem_map.mpr ⟨p, hp, hbm⟩)

/-- C7 (confirmed): for a well-formed branch listing — non-empty
    whitespace-free local names; remote names additionally free of internal
    `origin/` occurrences, not starting with `HEAD`, and pairwise distinct —
    `get_project_branches` returns the union of the local names and the
    remote names with the `origin/` marker stripped, with the synthetic
    `origin/HEAD` pointer line excluded: the local entries in order,
    followed by exactly those remote names not already present locally.
    Consequently (second conjunct, for pairwise distinct local names) a
    branch existing both locally and remotely is reported exactly once and
    with `is_remote = false`. -/
theorem branch_list_correct (locals : List (Bool × List Char)) (remotes : List (List Char))
    (hl : ∀ p ∈ locals, p.2 ≠ [] ∧ ∀ c ∈ p.2, pyIsSpace c = false)
    (hr : ∀ n ∈ remotes, n ≠ [] ∧ (∀ c ∈ n, pyIsSpace c = false) ∧
        removeOriginSlash n = n ∧ ("HEAD".toList).isPrefixOf n = false)
    (hndr : remotes.Nodup) (hndl : (locals.map Prod.snd).Nodup) :
    GitProjects.get_project_branches
        (some (locals.map (fun p => if p.1 then '*' :: ' ' :: p.2 else ' ' :: ' ' :: p.2)))
        (some ((' ' :: ' ' :: ("origin/HEAD -> origin/main".toList)) ::
          remotes.map (fun n => ' ' :: ' ' :: ("origin/".toList ++ n)))) =
      locals.map (fun p => ⟨p.2, p.1, false⟩) ++
        (remotes.filter (fun n => decide (n ∉ locals.map Prod.snd))).map
          (fun n => ⟨n, false, true⟩) ∧
    ∀ n, n ∈ locals.map Prod.snd → n ∈ remotes →
      ((locals.map (fun p => (⟨p.2, p.1, false⟩ : GitProjects.GitBranch)) ++
          (remotes.filter (fun m => decide (m ∉ locals.map Prod.snd))).map
            (fun m => (⟨m, false, true⟩ : GitProjects.GitBranch))).filter
        (fun b => decide (b.name = n))).length = 1 ∧
      ∀ b ∈ (locals.map (fun p => (⟨p.2, p.1, false⟩ : GitProjects.GitBranch)) ++
          (remotes.filter (fun m => decide (m ∉ locals.map Prod.snd))).map
            (fun m => (⟨m, false, true⟩ : GitProjects.GitBranch))),
        b.name = n → b.is_remote = false := by
  constructor
  · show List.foldl GitProjects.addRemoteLine
        (List.foldl GitProjects.addLocalLine []
          (locals.map (fun p => if p.1 then '*' :: ' ' :: p.2 else ' ' :: ' ' :: p.2)))
        ((' ' :: ' ' :: ("origin/HEAD -> origin/main".toList)) ::
          remotes.map (fun n => ' ' :: ' ' :: ("origin/".toList ++ n))) = _
    rw [GitProjects.foldl_addLocalLine locals [] hl, List.nil_append, List.foldl_cons,
      GitProjects.addRemoteLine_head, GitProjects.foldl_addRemoteLine remotes _ hr hndr]
    have hq : remotes.filter (fun m =>
        !((locals.map (fun p => (⟨p.2, p.1, false⟩ : GitProjects.GitBranch))).any
          (fun b => decide (b.name = m)))) =
        remotes.filter (fun m => decide (m ∉ locals.map Prod.snd)) := by
      apply List.filter_congr
      intro m _
      rw [any_entry_name locals m]
      simp [decide_not]
    rw [hq]
  · intro n hnl hnr
    constructor
    · rw [List.filter_append, List.length_append]
      have hA : ((locals.map (fun p => (⟨p.2, p.1, false⟩ : GitProjects.GitBranch))).filter
          (fun b => decide (b.name = n))).length = 1 := by
        rw [List.filter_map, List.length_map]
        have e2 : ((locals.map Prod.snd).filter (fun x => decide (x = n))).length =
            (locals.filter ((fun b : GitProjects.GitBranch => decide (b.name = n)) ∘
              (fun p => ⟨p.2, p.1, false⟩))).length := by
          rw [List.filter_map, List.length_map]
          rfl
        rw [← e2]
        exact countP_eq_one_of_nodup_mem (locals.map Prod.snd) hndl hnl
      have hB : (((remotes.filter (fun m => decide (m ∉ locals.map Prod.snd))).map
          (fun m => (⟨m, false, true⟩ : GitProjects.GitBranch))).filter
          (fun b => decide (b.name = n))).length = 0 := by
        rw [List.filter_map, List.length_map, List.length_eq_zero, List.filter_eq_nil_iff]
        intro m hm
        have hm2 := List.mem_filter.mp hm
        simp only [decide_eq_true_eq] at hm2 ⊢
        simp only [Function.comp]
        intro e
        rw [decide_eq_true_eq] at e
        exact hm2.2 (e ▸ hnl)
      rw [hA, hB]
    · intro b hb hbn
      rcases List.mem_append.mp hb with hbl | hbr
      · obtain ⟨p, hp, rfl⟩ := List.mem_map.mp hbl
        rfl
      · obtain ⟨m, hm, rfl⟩ := List.mem_map.mp hbr
        exfalso
        have hm2 := List.mem_filter.mp hm
        have hmn : m = n := hbn
        subst hmn
        simp only [decide_eq_true_eq] at hm2
        exact hm2.2 hnl

/-- Witness for C7 on the branch de-duplication test vector of the spec:
    local branches main (current) and feature, remote branches origin/main,
    origin/feature and the origin/HEAD pointer. -/
theorem branch_list_correct_witness :
    GitProjects.get_project_branches
        (some [("* main".toList), ("  feature".toList)])
        (some [("  origin/HEAD -> origin/main".toList), ("  origin/main".toList),
               ("  origin/feature".toList)]) =
      [⟨"main".toList, true, false⟩, ⟨"feature".toList, false, false⟩] := by
  have h := branch_list_correct [(true, "main".toList), (false, "feature".toList)]
    [("main".toList), ("feature".toList)] (by decide) (by decide) (by decide) (by decide)
  have hmain := h.1
  have e1 : [(true, "main".toList), (false, "feature".toList)].map
      (fun p => if p.1 then '*' :: ' ' :: p.2 else ' ' :: ' ' :: p.2) =
      [("* main".toList), ("  feature".toList)] := by decide
  have e2 : (' ' :: ' ' :: ("origin/HEAD -> origin/main".toList)) ::
      [("main".toList), ("feature".toList)].map
        (fun n => ' ' :: ' ' :: ("origin/".toList ++ n)) =
      [("  origin/HEAD -> origin/main".toList), ("  origin/main".toList),
       ("  origin/feature".toList)] := by decide
  rw [e1, e2] at hmain
  exact hmain.trans (by decide)

end Claudable
